import Mathlib

/-!
Verification of the `fixp` fixed-point arithmetic library (`fixp.hpp`,
`simd_neon.hpp`) against its natural-language specification.

Machine integers are modelled as bit patterns: a C++ signed integer of
width `w` is a natural number `p < 2^w`, read as a value through two's
complement (`toSigned`).  Casts, wrapping overflow and arithmetic shifts
are explicit operations on patterns.  C++ `/` and `%` on signed integers
truncate toward zero and are modelled by `Int.tdiv` / `Int.tmod`;
arithmetic shift right is floor division, modelled at the bit level by
`asrP` and related to `Int.fdiv` by a lemma.
-/

namespace Fixp

/-- Read a `w`-bit pattern as a two's-complement signed value. -/
def toSigned (w : Nat) (p : Nat) : Int :=
  if p < 2 ^ (w - 1) then (p : Int) else (p : Int) - 2 ^ w

/-- Store an integer value into a `w`-bit pattern (wrapping modulo `2^w`);
models C++ integer casts and wrapping overflow. -/
def ofInt (w : Nat) (x : Int) : Nat :=
  (x % (2 ^ w : Int)).toNat

/-- Arithmetic shift right by `n` of a `w`-bit pattern: shift the bits and
fill with copies of the sign bit. -/
def asrP (w n : Nat) (p : Nat) : Nat :=
  p / 2 ^ n + (if p < 2 ^ (w - 1) then 0 else (2 ^ n - 1) * 2 ^ (w - n))

/-- C++ `operator+` on `fixed` (fixp.hpp 174-178): add the raw values (the
int16 operands are promoted to int, added exactly) and narrow back into the
`ws`-bit Storage, wrapping. -/
def fixAdd (ws : Nat) (pa pb : Nat) : Nat :=
  ofInt ws (toSigned ws pa + toSigned ws pb)

/-- C++ `operator-` on `fixed` (fixp.hpp 180-184): raw subtraction narrowed
back into Storage, wrapping. -/
def fixSub (ws : Nat) (pa pb : Nat) : Nat :=
  ofInt ws (toSigned ws pa - toSigned ws pb)

/-- C++ `operator*` on `fixed` (fixp.hpp 186-193): widen both raw values to
the `wi`-bit Intermediate, multiply (wrapping in Intermediate), arithmetic
shift right by `F`, narrow back into Storage. -/
def fixMul (F ws wi : Nat) (pa pb : Nat) : Nat :=
  let ia := ofInt wi (toSigned ws pa)
  let ib := ofInt wi (toSigned ws pb)
  let prod := ofInt wi (toSigned wi ia * toSigned wi ib)
  ofInt ws (toSigned wi (asrP wi F prod))

/-- C++ `operator/` on `fixed` (fixp.hpp 195-205): widen the numerator,
shift left by `F` (wrapping in Intermediate), divide by the widened
denominator with C++ truncating division, narrow into Storage.  Division by
a zero raw value is undefined behaviour in the source and yields `none`. -/
def fixDiv (F ws wi : Nat) (pa pb : Nat) : Option Nat :=
  if toSigned ws pb = 0 then none
  else
    let num := ofInt wi (toSigned ws pa * 2 ^ F)
    some (ofInt ws (Int.tdiv (toSigned wi num) (toSigned ws pb)))

/-- `fixp::truncate` (fixp.hpp 273-276): `a.raw / T::Scale` with C++
truncating integer division. -/
def fixTruncate (F ws : Nat) (p : Nat) : Int :=
  Int.tdiv (toSigned ws p) (2 ^ F)

/-- Constructor from a signed integer (fixp.hpp 55-56): raw = x * Scale,
narrowed into Storage. -/
def fixOfInt (F ws : Nat) (x : Int) : Nat := ofInt ws (x * 2 ^ F)

/-- Truncation toward zero of a rational number, as in a C++ float-to-int
cast: divide the numerator by the (positive) denominator rounding toward
zero. -/
def ratTrunc (q : ℚ) : Int := Int.tdiv q.num q.den

/-- Constructor from a floating value (fixp.hpp 53): raw =
(Storage)(f * (float)Scale).  The float multiplication is modelled as exact
rational arithmetic; at every use in this development the float product is
exactly representable, so no float rounding is lost. -/
def fixOfFloat (F ws : Nat) (q : ℚ) : Nat := ofInt ws (ratTrunc (q * 2 ^ F))

/-- `detail::math::abs_cexpr` (fixp.hpp 83-90). -/
def abs_cexpr (x : Int) : Int := if x < 0 then -x else x

/-- Raw value of `fixed(2.0f / pi)` in the q4.12 configuration
(FracBits 12, int16 Storage, int32 Intermediate): float(2/pi) is
0.63661974..., times 4096 gives 2607.59..., truncated to 2607. -/
def invHalfPiRawQ412 : Nat := 2607

/-- Raw value of `fixed(2 * pi)` in the q4.12 configuration:
float(2*pi) = 6.2831853..., times 4096 gives 25735.9..., truncated. -/
def twoPiRawQ412 : Int := 25735

/-- `detail::get_trig_quadrant` (fixp.hpp 137-143): multiply the input by
`fixed(2/pi)`, truncate, take the absolute value, reduce mod 4 with the C++
truncating `%`.  Generic in the fixed configuration and in the raw constant
used for 2/pi. -/
def get_trig_quadrant (F ws wi : Nat) (invRaw : Nat) (p : Nat) : Int :=
  Int.tmod (abs_cexpr (fixTruncate F ws (fixMul F ws wi p invRaw))) 4

/-- The quadrant computation as the spec states it (spec.md section 4.2,
steps 2-3), written from the spec's words for comparison with
`get_trig_quadrant` in the q4.12 configuration: first reduce the input
modulo 2*pi with the raw truncating `%`, then multiply by fixed(2/pi), take
the mathematical floor of the fixed-point quotient (the sign-corrected
truncation the spec describes), and reduce mod 4 so the result lies in
{0,1,2,3}. -/
def quadrantSpecQ412 (p : Nat) : Int :=
  let reduced := ofInt 16 (Int.tmod (toSigned 16 p) twoPiRawQ412)
  let prodRaw := toSigned 16 (fixMul 12 16 32 reduced invHalfPiRawQ412)
  Int.emod (Int.fdiv prodRaw (2 ^ 12)) 4

/-- The `while (n) { n /= 10; log++; }` loop from to_string's max_digits
lambda (fixp.hpp 295-305), with explicit fuel; the result is the number of
iterations, i.e. the decimal digit count of n. -/
def digitLoop : Nat → Nat → Nat
  | 0, _ => 0
  | fuel + 1, n => if n = 0 then 0 else digitLoop fuel (n / 10) + 1

/-- Decimal digit count of n via `digitLoop`; fuel n+1 always suffices
because n strictly decreases across iterations. -/
def digitCount (n : Nat) : Nat := digitLoop (n + 1) n

/-- `max_digits` (fixp.hpp 295-305): digit count of 2^(FracBits-1), plus
one. -/
def maxDigits (F : Nat) : Nat := digitCount (2 ^ (F - 1)) + 1

/-- The fractional digit loop of to_string (fixp.hpp 313-320) on the raw
remainder r of the widened value: multiply the raw by 10, emit
truncate(value) % 10, subtract the truncated part back out; stop when the
remainder is zero or after `fuel` (= max_digits) digits.  The loop guard
`value.raw & T::FracMask` is a plain zero test because
FracMask = ((-1) << F) >> F = -1 (all bits set). -/
def fracDigits (scale : Int) : Nat → Int → List Int
  | 0, _ => []
  | fuel + 1, r =>
    if r = 0 then []
    else
      let r10 := r * 10
      let d := Int.tmod (Int.tdiv r10 scale) 10
      d :: fracDigits scale fuel (r10 - scale * Int.tdiv r10 scale)

/-- `fixp::to_string` (fixp.hpp 278-323) modelled structurally: the emitted
string is the decimal rendering of the truncated integer part t, followed,
when the fractional remainder is nonzero, by "." and the digits of
`fracDigits` run on the absolute value of the remainder.  The arithmetic
runs on the widened auxiliary type fixed<F, Intermediate, Intermediate>,
which cannot wrap for a Storage-representable input because
abs(raw) * 10 < 2^(ws + 4) ≤ 2^(wi - 1) in the library's configurations, so
it is modelled over unbounded Int. -/
def toStringParts (F : Nat) (x : Int) : Int × List Int :=
  let t := Int.tdiv x (2 ^ F)
  let r := x - 2 ^ F * t
  if r = 0 then (t, [])
  else
    let rabs := if r < 0 then -r else r
    (t, fracDigits (2 ^ F) (maxDigits F) rabs)

/-- Whether the string printed by to_string begins with a minus sign: the
integer part is printed via `operator<<(int)`, so a sign appears exactly
when the truncated integer part is negative. -/
def hasMinusSign (F : Nat) (x : Int) : Bool :=
  decide ((toStringParts F x).1 < 0)

/-- The rational value of a fractional digit list d0 d1 ... read as the
decimal string ".d0d1...". -/
def fracValQ : List Int → ℚ
  | [] => 0
  | d :: ds => ((d : ℚ) + fracValQ ds) / 10

/-- The number denoted by the string to_string prints, reparsed as a
decimal literal: a leading minus sign applies to the whole literal, so the
value is t + frac when the printed integer part is nonnegative and
-(|t| + frac) = t - frac when it carries a minus sign. -/
def reparseQ (F : Nat) (x : Int) : ℚ :=
  let parts := toStringParts F x
  (parts.1 : ℚ) + (if parts.1 < 0 then -1 else 1) * fracValQ parts.2

/-- `operator float()` (fixp.hpp 66-68): raw / Scale, with the float
division modelled as exact rational division (exact whenever the raw value
fits the float mantissa, as in the library's int16-storage
configurations). -/
def toFloatQ (F ws : Nat) (p : Nat) : ℚ := (toSigned ws p : ℚ) / 2 ^ F

/-- One Newton-Raphson update x ← x - (x*x - a) * (1/x) * 0.5 from the
sqrt loop body (fixp.hpp 489-494), on the widened type
fixed<F, Intermediate, Intermediate>; `none` exactly when computing
fixed_aux(1.0f) / x divides by a zero raw value. -/
def nrStep (F wi : Nat) (aP xP : Nat) : Option Nat :=
  (fixDiv F wi wi (fixOfFloat F wi 1) xP).map (fun invx =>
    fixSub wi xP
      (fixMul F wi wi
        (fixMul F wi wi (fixSub wi (fixMul F wi wi xP xP) aP) invx)
        (fixOfFloat F wi (1 / 2))))

/-- The sqrt refinement loop `for (i = 0; x.raw && i < Iterations; i++)`
(fixp.hpp 489-494): fuel is the remaining iteration count, and the loop
also stops as soon as x's raw value is exactly zero. -/
def sqrtLoop (F wi aP : Nat) : Nat → Nat → Option Nat
  | 0, xP => some xP
  | fuel + 1, xP =>
    if toSigned wi xP = 0 then some xP
    else
      match nrStep F wi aP xP with
      | none => none
      | some xP2 => sqrtLoop F wi aP fuel xP2

/-- `fixp::sqrt` (fixp.hpp 437-497).  A negative input returns fixed(0)
immediately.  Otherwise the Newton seed is SQRT_LUT[truncate(value)] (or
the out-of-range fallback), modelled by the table parameter `lut`: entry 0
of the source table is fixed_aux(0.5f) and each remaining entry is a
compile-time float Heron iteration, a floating-point computation that is
not modelled exactly, so claims about sqrt either hold for every table or
constrain only `lut 0`.  After the loop the refined value is narrowed back
into Storage. -/
def fixSqrt (F ws wi iters : Nat) (lut : Nat → Nat) (p : Nat) : Option Nat :=
  if toSigned ws p < 0 then some (fixOfInt F ws 0)
  else
    let x0 := lut (Int.toNat (fixTruncate F ws p))
    let aP := ofInt wi (toSigned ws p)
    (sqrtLoop F wi aP iters x0).map (fun xP => ofInt ws (toSigned wi xP))

/-- Write g(k) into positions base, base+1, ..., base+n-1 of an array
modelled as a function from indices to w-bit patterns; later indices are
written last. -/
def writeSeq (g : Nat → Nat) (res : Nat → Nat) (base : Nat) : Nat → (Nat → Nat)
  | 0 => res
  | n + 1 => Function.update (writeSeq g res base n) (base + n) (g (base + n))

/-- NEON lane counts per element width (simd_neon.hpp 49-52): 128-bit
vector registers. -/
def neonLanes (w : Nat) : Nat := 128 / w

/-- The elementwise scalar operation of a batch kernel at index k: apply op
to the signed values of a[k] and b[k] and wrap the result back into w bits.
Both the NEON lane instructions (vaddq/vsubq/vmulq) and the scalar
`result[i] = a[i] OP b[i]` tail statements wrap this way. -/
def elemOp (w : Nat) (op : Int → Int → Int) (a b : Nat → Nat) (k : Nat) : Nat :=
  ofInt w (op (toSigned w (a k)) (toSigned w (b k)))

/-- Common shape of simd_neon add/sub/mul (simd_neon.hpp 113-216).  The
chunked vector main loop (i over dim/vchunk chunks, IterSize registers of
`lanes` elements each) writes the elementwise result at exactly the indices
[0, (dim/vchunk)*vchunk).  The scalar tail loop then writes indices
offset + i for i < dim % vchunk where offset = dim / vchunk, the chunk
COUNT — exactly as the source computes `offset`. -/
def neonBinop (w : Nat) (op : Int → Int → Int) (iterSize : Nat)
    (a b res : Nat → Nat) (dim : Nat) : Nat → Nat :=
  let vchunk := neonLanes w * iterSize
  let g := elemOp w op a b
  let main := writeSeq g res 0 (dim / vchunk * vchunk)
  writeSeq g main (dim / vchunk) (dim % vchunk)

/-- simd_neon::add (simd_neon.hpp 113-146). -/
def neonAdd (w iterSize : Nat) (a b res : Nat → Nat) (dim : Nat) : Nat → Nat :=
  neonBinop w (· + ·) iterSize a b res dim

/-- simd_neon::sub (simd_neon.hpp 148-181). -/
def neonSub (w iterSize : Nat) (a b res : Nat → Nat) (dim : Nat) : Nat → Nat :=
  neonBinop w (· - ·) iterSize a b res dim

/-- simd_neon::mul (simd_neon.hpp 183-216). -/
def neonMul (w iterSize : Nat) (a b res : Nat → Nat) (dim : Nat) : Nat → Nat :=
  neonBinop w (· * ·) iterSize a b res dim

/-- The per-element scalar left shift `a[i] << Bits`: value * 2^Bits
narrowed back into w bits. -/
def elemShl (w bits : Nat) (a : Nat → Nat) (k : Nat) : Nat :=
  ofInt w (toSigned w (a k) * 2 ^ bits)

/-- The per-element arithmetic right shift performed by the vshrq lanes. -/
def elemShr (w bits : Nat) (a : Nat → Nat) (k : Nat) : Nat :=
  asrP w bits (a k)

/-- simd_neon::shr_immediate (simd_neon.hpp 258-296): the vector main loop
applies vshrq (arithmetic shift right per lane) over the chunked region;
the scalar tail loop applies `<<` — a left shift — exactly as written at
line 294 of the source, with the same offset = dim / vchunk base as the
other kernels. -/
def shr_immediate (w bits iterSize : Nat) (a res : Nat → Nat) (dim : Nat) :
    Nat → Nat :=
  let vchunk := neonLanes w * iterSize
  let main := writeSeq (elemShr w bits a) res 0 (dim / vchunk * vchunk)
  writeSeq (elemShl w bits a) main (dim / vchunk) (dim % vchunk)

end Fixp

namespace Fixp

theorem pow_cast_int (w : Nat) : ((2 ^ w : Nat) : Int) = 2 ^ w := by
  push_cast; ring

theorem pow_split (w : Nat) (hw : 1 ≤ w) :
    (2 : Int) ^ w = 2 ^ (w - 1) * 2 := by
  have h1 : w - 1 + 1 = w := by omega
  calc (2:Int) ^ w = 2 ^ (w - 1 + 1) := by rw [h1]
    _ = 2 ^ (w - 1) * 2 := by ring

theorem ofInt_lt (w : Nat) (x : Int) : ofInt w x < 2 ^ w := by
  unfold ofInt
  have h2 : (0 : Int) < 2 ^ w := by positivity
  have h3 := Int.emod_lt_of_pos x h2
  have h4 := Int.emod_nonneg x (by positivity : (2:Int) ^ w ≠ 0)
  have h5 := pow_cast_int w
  omega

theorem toSigned_lb (w : Nat) (p : Nat) (hp : p < 2 ^ w) (hw : 1 ≤ w) :
    -(2 ^ (w - 1) : Int) ≤ toSigned w p := by
  unfold toSigned
  have h5 := pow_cast_int w
  have h6 := pow_cast_int (w - 1)
  have h7 := pow_split w hw
  split
  · have : (0:Int) ≤ (p : Int) := by positivity
    have : (0:Int) < 2 ^ (w - 1) := by positivity
    omega
  · have : (p : Int) < 2 ^ w := by exact_mod_cast hp
    omega

theorem toSigned_ub (w : Nat) (p : Nat) (hp : p < 2 ^ w) (hw : 1 ≤ w) :
    toSigned w p < 2 ^ (w - 1) := by
  unfold toSigned
  have h5 := pow_cast_int w
  have h6 := pow_cast_int (w - 1)
  have h7 := pow_split w hw
  split
  · exact_mod_cast ‹_›
  · have : (p : Int) < 2 ^ w := by exact_mod_cast hp
    omega

theorem emod_shift (w : Nat) (x : Int) (hlb : -(2 ^ w : Int) ≤ x)
    (hub : x < 0) : x % (2 ^ w : Int) = x + 2 ^ w := by
  have h1 : (x + 2 ^ w * 1) % 2 ^ w = x % 2 ^ w :=
    Int.add_mul_emod_self_left x (2 ^ w) 1
  have h2 : (x + 2 ^ w * 1) % 2 ^ w = x + 2 ^ w * 1 :=
    Int.emod_eq_of_lt (by omega) (by omega)
  omega

theorem ofInt_toSigned (w : Nat) (p : Nat) (hp : p < 2 ^ w) :
    ofInt w (toSigned w p) = p := by
  unfold ofInt toSigned
  have h2 : (0 : Int) < 2 ^ w := by positivity
  have h5 := pow_cast_int w
  have h6 := pow_cast_int (w - 1)
  split
  · rw [Int.emod_eq_of_lt (by positivity) (by exact_mod_cast hp)]
    simp
  · rw [emod_shift w _ (by omega) (by omega)]
    have : (p : Int) - 2 ^ w + 2 ^ w = (p : Int) := by ring
    rw [this]
    simp

theorem toSigned_ofInt (w : Nat) (x : Int)
    (hlb : -(2 ^ (w - 1) : Int) ≤ x) (hub : x < 2 ^ (w - 1)) (hw : 1 ≤ w) :
    toSigned w (ofInt w x) = x := by
  unfold toSigned ofInt
  have h2 : (0 : Int) < 2 ^ w := by positivity
  have h5 := pow_cast_int w
  have h6 := pow_cast_int (w - 1)
  have h7 := pow_split w hw
  rcases le_or_lt 0 x with hx | hx
  · have hm := Int.emod_eq_of_lt hx (by omega : x < 2 ^ w)
    split <;> omega
  · have hm := emod_shift w x (by omega) hx
    split <;> omega

theorem asrP_spec (w n p : Nat) (hp : p < 2 ^ w) (hn : n < w) :
    toSigned w (asrP w n p) = Int.fdiv (toSigned w p) (2 ^ n) := by
  have hw : 1 ≤ w := by omega
  have hnw : n ≤ w - 1 := by omega
  unfold toSigned asrP
  rcases lt_or_le p (2 ^ (w - 1)) with hcase | hcase
  · rw [if_pos hcase, if_pos hcase, Nat.add_zero]
    have hdivlt : p / 2 ^ n < 2 ^ (w - 1) :=
      lt_of_le_of_lt (Nat.div_le_self p (2 ^ n)) hcase
    rw [if_pos hdivlt]
    rw [Int.fdiv_eq_ediv _ (by positivity)]
    rw [← pow_cast_int n, ← Int.natCast_div]
  · rw [if_neg (Nat.not_lt.mpr hcase), if_neg (Nat.not_lt.mpr hcase)]
    -- key power identities in Nat
    have e3 : 2 ^ n * 2 ^ (w - n) = 2 ^ w := by
      rw [← pow_add]; congr 1; omega
    have e1 : 2 ^ w = 2 ^ (w - 1) * 2 := by
      rw [← pow_succ]; congr 1; omega
    have e2 : 2 ^ (w - n) = 2 ^ (w - 1 - n) * 2 := by
      rw [← pow_succ]; congr 1; omega
    have e4 : 2 ^ (w - 1) / 2 ^ n = 2 ^ (w - 1 - n) :=
      Nat.pow_div hnw (by norm_num)
    have hq : 2 ^ (w - 1 - n) ≤ p / 2 ^ n := by
      rw [← e4]; exact Nat.div_le_div_right hcase
    have hqp : p / 2 ^ n ≤ p := Nat.div_le_self p (2 ^ n)
    have hbranch : ¬ (p / 2 ^ n + (2 ^ n - 1) * 2 ^ (w - n) < 2 ^ (w - 1)) := by
      have hmul : (2 ^ n - 1) * 2 ^ (w - n) = 2 ^ w - 2 ^ (w - n) := by
        have h1 : 1 ≤ 2 ^ n := Nat.one_le_two_pow
        calc (2 ^ n - 1) * 2 ^ (w - n)
            = 2 ^ n * 2 ^ (w - n) - 1 * 2 ^ (w - n) := by
              rw [Nat.sub_mul]
          _ = 2 ^ w - 2 ^ (w - n) := by rw [e3, one_mul]
      rw [hmul]
      omega
    rw [if_neg hbranch]
    have hpattern : Int.fdiv ((p : Int) - 2 ^ w) (2 ^ n)
        = ((p / 2 ^ n : Nat) : Int) - 2 ^ (w - n) := by
      have hsub : (p : Int) - 2 ^ w = (p : Int) + (-(2 ^ (w - n) : Int)) * 2 ^ n := by
        have : ((2 ^ (w - n) : Nat) : Int) * ((2 ^ n : Nat) : Int)
            = ((2 ^ w : Nat) : Int) := by
          rw [← Nat.cast_mul]; congr 1; rw [Nat.mul_comm]; exact e3
        push_cast at this ⊢
        linarith
      rw [hsub, Int.fdiv_eq_ediv _ (by positivity),
        Int.add_mul_ediv_right _ _ (by positivity : (2:Int) ^ n ≠ 0)]
      rw [← pow_cast_int n, ← Int.natCast_div]
      ring
    rw [hpattern]
    have hmul : (2 ^ n - 1) * 2 ^ (w - n) = 2 ^ w - 2 ^ (w - n) := by
      have h1 : 1 ≤ 2 ^ n := Nat.one_le_two_pow
      calc (2 ^ n - 1) * 2 ^ (w - n)
          = 2 ^ n * 2 ^ (w - n) - 1 * 2 ^ (w - n) := by rw [Nat.sub_mul]
        _ = 2 ^ w - 2 ^ (w - n) := by rw [e3, one_mul]
    have c1 := pow_cast_int w
    have c2 := pow_cast_int (w - n)
    have hwn : 2 ^ (w - n) ≤ 2 ^ w := Nat.pow_le_pow_right (by norm_num) (by omega)
    have hcastmul : (((2 ^ n - 1) * 2 ^ (w - n) : Nat) : Int)
        = ((2 ^ w : Nat) : Int) - ((2 ^ (w - n) : Nat) : Int) := by
      omega
    omega

theorem ratTrunc_intCast (n : Int) : ratTrunc (n : ℚ) = n := by
  unfold ratTrunc
  rw [Rat.num_intCast, Rat.den_intCast]
  push_cast
  exact Int.tdiv_one n

theorem fixOfFloat_eq (F ws : Nat) (q : ℚ) (n : Int) (h : q * 2 ^ F = (n : ℚ)) :
    fixOfFloat F ws q = ofInt ws n := by
  unfold fixOfFloat
  rw [h, ratTrunc_intCast]

theorem fixOfFloat_one (F ws : Nat) : fixOfFloat F ws 1 = ofInt ws (2 ^ F) :=
  fixOfFloat_eq F ws 1 (2 ^ F) (by push_cast; ring)

theorem fixOfFloat_half (F ws : Nat) (hF : 1 ≤ F) :
    fixOfFloat F ws (1 / 2) = ofInt ws (2 ^ (F - 1)) := by
  apply fixOfFloat_eq
  have h : (2 : ℚ) ^ F = 2 ^ (F - 1) * 2 := by
    have h1 : F - 1 + 1 = F := by omega
    calc (2:ℚ) ^ F = 2 ^ (F - 1 + 1) := by rw [h1]
      _ = 2 ^ (F - 1) * 2 := by ring
  rw [h]
  push_cast
  ring

/-- C1: the batch kernels are claimed to write `result[i] = a[i] OP b[i]`
for every index i < N, including the tail after the last full vector
chunk.  The scalar tail loop's base offset is `dim / vchunk` — the chunk
count — instead of `(dim / vchunk) * vchunk`, so for a 16-bit array of
length 33 (one full chunk of 32 plus one tail element) the tail element at
index 32 is never written: with a ≡ 3, b ≡ 1 and result initialised to 0,
add/sub/mul all leave result[32] = 0, while the scalar reference gives
3 + 1 = 4, 3 - 1 = 2 and 3 * 1 = 3 respectively. -/
theorem simd_tail_element_never_written :
    (neonAdd 16 4 (fun _ => 3) (fun _ => 1) (fun _ => 0) 33) 32 = 0 ∧
    (neonSub 16 4 (fun _ => 3) (fun _ => 1) (fun _ => 0) 33) 32 = 0 ∧
    (neonMul 16 4 (fun _ => 3) (fun _ => 1) (fun _ => 0) 33) 32 = 0 ∧
    elemOp 16 (· + ·) (fun _ => 3) (fun _ => 1) 32 = 4 ∧
    elemOp 16 (· - ·) (fun _ => 3) (fun _ => 1) 32 = 2 ∧
    elemOp 16 (· * ·) (fun _ => 3) (fun _ => 1) 32 = 3 := by
  decide

/-- C2 counterexample: at the q4.12 input with raw value -4096 (i.e. -1.0),
`get_trig_quadrant` returns 0, while the quadrant the spec describes —
mathematical floor of (the mod-2pi-reduced value times fixed(2/pi)), taken
mod 4 — is 3.  The code takes the absolute value of the truncated quotient
instead of correcting it to the floor. -/
theorem get_trig_quadrant_floor_mismatch :
    get_trig_quadrant 12 16 32 invHalfPiRawQ412 (ofInt 16 (-4096)) = 0 ∧
    quadrantSpecQ412 (ofInt 16 (-4096)) = 3 ∧ (0 : Int) ≠ 3 := by
  decide

/-- C2 amended: for every fixed-point configuration, every raw constant
used for 2/pi and every input pattern, the quadrant index computed by
`get_trig_quadrant` — the absolute value of the truncated fixed-point
quotient, reduced mod 4 — always lies in {0,1,2,3}; the negative-quotient
handling is an absolute value, not a floor correction. -/
theorem get_trig_quadrant_in_range (F ws wi invRaw p : Nat) :
    0 ≤ get_trig_quadrant F ws wi invRaw p ∧
    get_trig_quadrant F ws wi invRaw p < 4 := by
  unfold get_trig_quadrant abs_cexpr
  have habs : 0 ≤ (if fixTruncate F ws (fixMul F ws wi p invRaw) < 0
      then -fixTruncate F ws (fixMul F ws wi p invRaw)
      else fixTruncate F ws (fixMul F ws wi p invRaw)) := by
    split <;> omega
  exact ⟨Int.tmod_nonneg 4 habs, Int.tmod_lt_of_pos _ (by norm_num)⟩

/-- C2 amended, witness. -/
theorem get_trig_quadrant_in_range_witness :
    0 ≤ get_trig_quadrant 12 16 32 2607 61440 ∧
    get_trig_quadrant 12 16 32 2607 61440 < 4 :=
  get_trig_quadrant_in_range 12 16 32 2607 61440

/-- C3: for every fixed-point configuration, every iteration count, every
seed table and every input whose raw value is negative, sqrt returns the
fixed-point value with all raw bits zero; no error is signalled. -/
theorem sqrt_negative_returns_zero (F ws wi iters : Nat) (lut : Nat → Nat)
    (p : Nat) (hneg : toSigned ws p < 0) :
    fixSqrt F ws wi iters lut p = some 0 := by
  unfold fixSqrt
  rw [if_pos hneg]
  unfold fixOfInt ofInt
  norm_num

/-- C3, witness: the q4.12 pattern 65535 is the raw value -1. -/
theorem sqrt_negative_returns_zero_witness :
    toSigned 16 65535 < 0 ∧
    fixSqrt 12 16 32 2 (fun _ => 0) 65535 = some 0 :=
  ⟨by decide, sqrt_negative_returns_zero 12 16 32 2 (fun _ => 0) 65535 (by decide)⟩

/-- C6: in the q4.12 configuration (FracBits 12, int16 Storage, int32
Intermediate), dividing fixed(5.0) by fixed(3.0) yields raw 6826, whose
float conversion is exactly 1.66650390625 — not 5/3 ≈ 1.6667 — because the
widened integer division truncates toward zero. -/
theorem div_five_by_three_q412 :
    fixDiv 12 16 32 (fixOfFloat 12 16 5) (fixOfFloat 12 16 3) = some 6826 ∧
    toFloatQ 12 16 6826 = 1.66650390625 ∧
    toFloatQ 12 16 6826 ≠ 5 / 3 := by
  have h5 : fixOfFloat 12 16 5 = ofInt 16 20480 :=
    fixOfFloat_eq 12 16 5 20480 (by norm_num)
  have h3 : fixOfFloat 12 16 3 = ofInt 16 12288 :=
    fixOfFloat_eq 12 16 3 12288 (by norm_num)
  refine ⟨?_, ?_, ?_⟩
  · rw [h5, h3]; decide
  · norm_num [toFloatQ, toSigned]
  · norm_num [toFloatQ, toSigned]

theorem sqrtLoop_isSome (F wi aP : Nat) :
    ∀ (fuel xP : Nat), (sqrtLoop F wi aP fuel xP).isSome = true := by
  intro fuel
  induction fuel with
  | zero => intro xP; rfl
  | succ n ih =>
    intro xP
    unfold sqrtLoop
    split
    · rfl
    next h =>
      have hstep : ∃ v, nrStep F wi aP xP = some v := by
        unfold nrStep fixDiv
        rw [if_neg h]
        exact ⟨_, rfl⟩
      obtain ⟨v, hv⟩ := hstep
      rw [hv]
      exact ih v

/-- C7: for every configuration, iteration count, seed table and input,
sqrt produces a result: the loop condition tests x's raw value before each
iteration and stops when it is zero, so the division 1/x inside the loop
body — which is `none` exactly on a zero divisor — never fails, and sqrt
is total. -/
theorem sqrt_division_by_zero_unreachable (F ws wi iters : Nat)
    (lut : Nat → Nat) (p : Nat) :
    (fixSqrt F ws wi iters lut p).isSome = true := by
  unfold fixSqrt
  split
  · rfl
  · obtain ⟨v, hv⟩ := Option.isSome_iff_exists.mp
      (sqrtLoop_isSome F wi (ofInt wi (toSigned ws p)) iters
        (lut (Int.toNat (fixTruncate F ws p))))
    show (Option.map _ (sqrtLoop F wi (ofInt wi (toSigned ws p)) iters
      (lut (Int.toNat (fixTruncate F ws p))))).isSome = true
    rw [hv]
    rfl

/-- C5: for all raw patterns whose signed product fits the Intermediate
type, the raw result of `operator*` is the mathematical floor of
(a.raw * b.raw) / 2^FracBits, reduced modulo 2^ws back into Storage: the
arithmetic shift right rounds negative products toward negative
infinity. -/
theorem mul_floors_toward_neg_infinity (F ws wi : Nat) (pa pb : Nat)
    (hws : 1 ≤ ws) (hwswi : ws ≤ wi) (hFwi : F < wi)
    (hpa : pa < 2 ^ ws) (hpb : pb < 2 ^ ws)
    (hfitlo : -(2 ^ (wi - 1) : Int) ≤ toSigned ws pa * toSigned ws pb)
    (hfithi : toSigned ws pa * toSigned ws pb < 2 ^ (wi - 1)) :
    fixMul F ws wi pa pb
      = ofInt ws (Int.fdiv (toSigned ws pa * toSigned ws pb) (2 ^ F)) := by
  have hwi : 1 ≤ wi := by omega
  have hsa_ub := toSigned_ub ws pa hpa hws
  have hsa_lb := toSigned_lb ws pa hpa hws
  have hsb_ub := toSigned_ub ws pb hpb hws
  have hsb_lb := toSigned_lb ws pb hpb hws
  have hmonoN : (2:Nat) ^ (ws - 1) ≤ 2 ^ (wi - 1) :=
    Nat.pow_le_pow_right (by norm_num) (by omega)
  have hmono : (2 : Int) ^ (ws - 1) ≤ 2 ^ (wi - 1) := by
    have c1 := pow_cast_int (ws - 1)
    have c2 := pow_cast_int (wi - 1)
    omega
  have hia : toSigned wi (ofInt wi (toSigned ws pa)) = toSigned ws pa :=
    toSigned_ofInt wi _ (by omega) (by omega) hwi
  have hib : toSigned wi (ofInt wi (toSigned ws pb)) = toSigned ws pb :=
    toSigned_ofInt wi _ (by omega) (by omega) hwi
  simp only [fixMul]
  rw [hia, hib]
  rw [asrP_spec wi F _ (ofInt_lt wi _) hFwi]
  rw [toSigned_ofInt wi _ hfitlo hfithi hwi]

/-- C5, witness: in q4.12 with raw values -1 (pattern 65535) and 4097, the
true product -4097 floors to fdiv(-4097, 4096) = -2 = pattern 65534, where
truncation toward zero would have given -1. -/
theorem mul_floors_toward_neg_infinity_witness :
    fixMul 12 16 32 65535 4097
      = ofInt 16 (Int.fdiv (toSigned 16 65535 * toSigned 16 4097) (2 ^ 12)) ∧
    fixMul 12 16 32 65535 4097 = 65534 ∧
    Int.fdiv (-4097) 4096 = -2 ∧ Int.tdiv (-4097) 4096 = -1 :=
  ⟨mul_floors_toward_neg_infinity 12 16 32 65535 4097 (by decide) (by decide)
      (by decide) (by decide) (by decide) (by decide) (by decide),
    by decide, by decide, by decide⟩

/-- C9: for every representable raw pattern a (in a configuration where
fixed(1) is exactly representable and the widening multiply cannot
overflow), a + fixed(0) == a, a - a == fixed(0), and a * fixed(1) == a;
the multiplication identity in fact holds exactly, since the product
a.raw * 2^F has no discarded low bits. -/
theorem arithmetic_identities (F ws wi : Nat) (pa : Nat)
    (hws : 1 ≤ ws) (hF1 : F + 1 < ws) (hwswi : ws ≤ wi) (hfit : ws + F ≤ wi)
    (hpa : pa < 2 ^ ws) :
    fixAdd ws pa (fixOfInt F ws 0) = pa ∧
    fixSub ws pa pa = fixOfInt F ws 0 ∧
    fixMul F ws wi pa (fixOfInt F ws 1) = pa := by
  have hwi : 1 ≤ wi := by omega
  have hz : fixOfInt F ws 0 = 0 := by
    unfold fixOfInt ofInt
    norm_num
  have hts0 : toSigned ws 0 = 0 := by
    unfold toSigned
    rw [if_pos (by positivity)]
    norm_num
  have hsa_ub := toSigned_ub ws pa hpa hws
  have hsa_lb := toSigned_lb ws pa hpa hws
  refine ⟨?_, ?_, ?_⟩
  · rw [hz]
    unfold fixAdd
    rw [hts0, add_zero]
    exact ofInt_toSigned ws pa hpa
  · rw [hz]
    unfold fixSub ofInt
    norm_num
  · have hone : fixOfInt F ws 1 = ofInt ws (2 ^ F) := by
      unfold fixOfInt
      rw [one_mul]
    have hFsmall : (2 : Int) ^ F < 2 ^ (ws - 1) := by
      have hN : (2:Nat) ^ F < 2 ^ (ws - 1) :=
        Nat.pow_lt_pow_right (by norm_num) (by omega)
      have c1 := pow_cast_int F
      have c2 := pow_cast_int (ws - 1)
      omega
    have htsone : toSigned ws (ofInt ws (2 ^ F)) = 2 ^ F := by
      refine toSigned_ofInt ws _ ?_ hFsmall hws
      have h1 : (0:Int) < 2 ^ F := by positivity
      have h2 : (0:Int) < 2 ^ (ws - 1) := by positivity
      omega
    have hmono : (2 : Int) ^ (ws - 1) ≤ 2 ^ (wi - 1) := by
      have hN : (2:Nat) ^ (ws - 1) ≤ 2 ^ (wi - 1) :=
        Nat.pow_le_pow_right (by norm_num) (by omega)
      have c1 := pow_cast_int (ws - 1)
      have c2 := pow_cast_int (wi - 1)
      omega
    have hia : toSigned wi (ofInt wi (toSigned ws pa)) = toSigned ws pa :=
      toSigned_ofInt wi _ (by omega) (by omega) hwi
    have hibv : toSigned wi (ofInt wi (toSigned ws (ofInt ws (2 ^ F)))) = 2 ^ F := by
      rw [htsone]
      refine toSigned_ofInt wi _ ?_ ?_ hwi
      · have h1 : (0:Int) < 2 ^ F := by positivity
        have h2 : (0:Int) < 2 ^ (wi - 1) := by positivity
        omega
      · calc (2:Int) ^ F < 2 ^ (ws - 1) := hFsmall
          _ ≤ 2 ^ (wi - 1) := hmono
    have hpow_shift : (2 : Int) ^ (ws - 1) * 2 ^ F = 2 ^ (ws - 1 + F) := by
      rw [← pow_add]
    have hbig : (2 : Int) ^ (ws - 1 + F) ≤ 2 ^ (wi - 1) := by
      have hN : (2:Nat) ^ (ws - 1 + F) ≤ 2 ^ (wi - 1) :=
        Nat.pow_le_pow_right (by norm_num) (by omega)
      have c1 := pow_cast_int (ws - 1 + F)
      have c2 := pow_cast_int (wi - 1)
      omega
    have hprodlo : -(2 ^ (wi - 1) : Int) ≤ toSigned ws pa * 2 ^ F := by
      have h1 : -(2 ^ (ws - 1) : Int) * 2 ^ F ≤ toSigned ws pa * 2 ^ F :=
        mul_le_mul_of_nonneg_right hsa_lb (by positivity)
      have h2 : -(2 ^ (ws - 1) : Int) * 2 ^ F = -(2 ^ (ws - 1 + F)) := by
        rw [← hpow_shift]; ring
      calc -(2 ^ (wi - 1) : Int) ≤ -(2 ^ (ws - 1 + F)) := by omega
        _ = -(2 ^ (ws - 1) : Int) * 2 ^ F := h2.symm
        _ ≤ toSigned ws pa * 2 ^ F := h1
    have hprodhi : toSigned ws pa * 2 ^ F < 2 ^ (wi - 1) := by
      have h1 : toSigned ws pa * 2 ^ F < 2 ^ (ws - 1) * 2 ^ F :=
        mul_lt_mul_of_pos_right hsa_ub (by positivity)
      calc toSigned ws pa * 2 ^ F < 2 ^ (ws - 1) * 2 ^ F := h1
        _ = 2 ^ (ws - 1 + F) := hpow_shift
        _ ≤ 2 ^ (wi - 1) := hbig
    rw [hone]
    simp only [fixMul]
    rw [hia, hibv]
    rw [asrP_spec wi F _ (ofInt_lt wi _) (by omega)]
    rw [toSigned_ofInt wi _ hprodlo hprodhi hwi]
    rw [Int.mul_fdiv_cancel _ (by positivity : (2:Int) ^ F ≠ 0)]
    exact ofInt_toSigned ws pa hpa

/-- C9, witness: q4.12 with raw pattern 61440 (the value -1.0). -/
theorem arithmetic_identities_witness :
    fixAdd 16 61440 (fixOfInt 12 16 0) = 61440 ∧
    fixSub 16 61440 61440 = fixOfInt 12 16 0 ∧
    fixMul 12 16 32 61440 (fixOfInt 12 16 1) = 61440 :=
  arithmetic_identities 12 16 32 61440 (by decide) (by decide) (by decide)
    (by decide) (by decide)

theorem digitLoop_bound : ∀ (fuel n : Nat), n < fuel → n < 10 ^ digitLoop fuel n := by
  intro fuel
  induction fuel with
  | zero => intro n h; omega
  | succ m ih =>
    intro n h
    unfold digitLoop
    split
    next hn =>
      subst hn
      norm_num
    next hn =>
      have h10 : n / 10 < m := by
        have := Nat.div_lt_self (Nat.pos_of_ne_zero hn) (by norm_num : 1 < 10)
        omega
      have hih := ih (n / 10) h10
      have hp : (10:Nat) ^ (digitLoop m (n / 10) + 1)
          = 10 * 10 ^ digitLoop m (n / 10) := by
        rw [pow_succ]; ring
      omega

theorem maxDigits_bound (F : Nat) (hF : 1 ≤ F) : 2 ^ F < 10 ^ maxDigits F := by
  unfold maxDigits digitCount
  have h := digitLoop_bound (2 ^ (F - 1) + 1) (2 ^ (F - 1)) (by omega)
  have hsplit : (2:Nat) ^ F = 2 ^ (F - 1) * 2 := by
    rw [← pow_succ]; congr 1; omega
  have hp : (10:Nat) ^ (digitLoop (2 ^ (F - 1) + 1) (2 ^ (F - 1)) + 1)
      = 10 ^ digitLoop (2 ^ (F - 1) + 1) (2 ^ (F - 1)) * 10 := by
    rw [pow_succ]
  omega

theorem fracDigits_bounds (scale : Int) (hs : 0 < scale) :
    ∀ (fuel : Nat) (r : Int), 0 ≤ r → r < scale →
      (r : ℚ) / (scale : ℚ) - 1 / 10 ^ fuel <
          fracValQ (fracDigits scale fuel r) ∧
        fracValQ (fracDigits scale fuel r) ≤ (r : ℚ) / (scale : ℚ) := by
  have hsQ : (0 : ℚ) < (scale : ℚ) := by exact_mod_cast hs
  intro fuel
  induction fuel with
  | zero =>
    intro r hr0 hr1
    have hlt1 : (r : ℚ) / (scale : ℚ) < 1 := by
      rw [div_lt_one hsQ]; exact_mod_cast hr1
    have hge0 : (0 : ℚ) ≤ (r : ℚ) / (scale : ℚ) :=
      div_nonneg (by exact_mod_cast hr0) (le_of_lt hsQ)
    constructor
    · show (r : ℚ) / (scale : ℚ) - 1 / 10 ^ 0 < fracValQ []
      unfold fracValQ
      norm_num
      linarith
    · show fracValQ [] ≤ (r : ℚ) / (scale : ℚ)
      unfold fracValQ
      linarith
  | succ m ih =>
    intro r hr0 hr1
    by_cases hr : r = 0
    · subst hr
      show _ < fracValQ (fracDigits scale (m+1) 0) ∧
        fracValQ (fracDigits scale (m+1) 0) ≤ _
      unfold fracDigits
      rw [if_pos rfl]
      unfold fracValQ
      norm_num
    · have hcons : fracDigits scale (m+1) r
          = Int.tmod (Int.tdiv (r * 10) scale) 10 ::
            fracDigits scale m (r * 10 - scale * Int.tdiv (r * 10) scale) := by
        conv_lhs => unfold fracDigits
        rw [if_neg hr]
      have hr10 : (0:Int) ≤ r * 10 := by omega
      have htd : Int.tdiv (r * 10) scale = (r * 10) / scale :=
        Int.tdiv_eq_ediv hr10 (le_of_lt hs)
      have hq0 : 0 ≤ Int.tdiv (r * 10) scale := by
        rw [htd]; exact Int.ediv_nonneg hr10 (le_of_lt hs)
      have hqlt : Int.tdiv (r * 10) scale < 10 := by
        rw [htd]
        rw [Int.ediv_lt_iff_lt_mul hs]
        omega
      have hd : Int.tmod (Int.tdiv (r * 10) scale) 10 = Int.tdiv (r * 10) scale := by
        rw [Int.tmod_eq_emod hq0 (by norm_num)]
        exact Int.emod_eq_of_lt hq0 hqlt
      have hrem : r * 10 - scale * Int.tdiv (r * 10) scale = (r * 10) % scale := by
        rw [htd, Int.emod_def]
      have hr2_0 : 0 ≤ r * 10 - scale * Int.tdiv (r * 10) scale := by
        rw [hrem]; exact Int.emod_nonneg _ (by omega)
      have hr2_lt : r * 10 - scale * Int.tdiv (r * 10) scale < scale := by
        rw [hrem]; exact Int.emod_lt_of_pos _ hs
      obtain ⟨ihl, ihr⟩ := ih _ hr2_0 hr2_lt
      rw [hcons, hd]
      have hval : fracValQ (Int.tdiv (r * 10) scale ::
          fracDigits scale m (r * 10 - scale * Int.tdiv (r * 10) scale))
          = ((Int.tdiv (r * 10) scale : ℚ) +
            fracValQ (fracDigits scale m
              (r * 10 - scale * Int.tdiv (r * 10) scale))) / 10 := rfl
      rw [hval]
      have hkey : (r : ℚ) / (scale : ℚ)
          = ((Int.tdiv (r * 10) scale : ℚ)
            + ((r * 10 - scale * Int.tdiv (r * 10) scale : Int) : ℚ)
              / (scale : ℚ)) / 10 := by
        have hint : (r * 10 : Int)
            = scale * Int.tdiv (r * 10) scale
              + (r * 10 - scale * Int.tdiv (r * 10) scale) := by ring
        have hcast : (r : ℚ) * 10
            = (scale : ℚ) * (Int.tdiv (r * 10) scale : ℚ)
              + ((r * 10 - scale * Int.tdiv (r * 10) scale : Int) : ℚ) := by
          exact_mod_cast congrArg (fun z : Int => (z : ℚ)) hint
        field_simp
        linarith
      have hpow : (1:ℚ) / 10 ^ (m + 1) = (1 / 10 ^ m) / 10 := by
        rw [pow_succ]; ring
      constructor
      · rw [hkey, hpow]
        linarith
      · rw [hkey]
        linarith

/-- Characterization of `toStringParts` with its let-bindings expanded. -/
theorem toStringParts_def (F : Nat) (x : Int) :
    toStringParts F x =
      if x - 2 ^ F * Int.tdiv x (2 ^ F) = 0 then (Int.tdiv x (2 ^ F), [])
      else (Int.tdiv x (2 ^ F),
        fracDigits (2 ^ F) (maxDigits F)
          (if x - 2 ^ F * Int.tdiv x (2 ^ F) < 0
            then -(x - 2 ^ F * Int.tdiv x (2 ^ F))
            else x - 2 ^ F * Int.tdiv x (2 ^ F))) := rfl

/-- C4 counterexample: in the q4.12 configuration the value with raw bits
-1024 is -0.25, but to_string prints "0.25": the integer part truncates to
0 and is printed without a sign, and the fractional digits are produced
from the absolute value of the remainder.  The printed string carries no
minus sign although the value is negative, and its reparsed value 1/4
differs from the float conversion -1/4 by 1/2, far more than 2^-12. -/
theorem to_string_drops_sign_q412 :
    hasMinusSign 12 (-1024) = false ∧
    toSigned 16 (ofInt 16 (-1024)) < 0 ∧
    reparseQ 12 (-1024) = 1 / 4 ∧
    toFloatQ 12 16 (ofInt 16 (-1024)) = -(1 / 4) ∧
    ¬ |reparseQ 12 (-1024) - toFloatQ 12 16 (ofInt 16 (-1024))| < 1 / 2 ^ 12 := by
  have hparts : toStringParts 12 (-1024) = (0, [2, 5]) := by decide
  have hrep : reparseQ 12 (-1024) = 1 / 4 := by
    simp only [reparseQ, hparts]
    norm_num [fracValQ]
  have hflo : toFloatQ 12 16 (ofInt 16 (-1024)) = -(1 / 4) := by
    have : ofInt 16 (-1024) = 64512 := by decide
    rw [this]
    unfold toFloatQ toSigned
    norm_num
  refine ⟨?_, by decide, hrep, hflo, ?_⟩
  · unfold hasMinusSign
    rw [hparts]
    decide
  · rw [hrep, hflo]
    have habs : |(1:ℚ) / 4 - -(1 / 4)| = 1 / 2 := by
      rw [abs_of_pos] <;> norm_num
    rw [habs]
    norm_num

/-- C4 amended: for every value that is nonnegative or at most -1 (raw at
most -2^F) — equivalently, whenever the truncated integer part is nonzero
or the value is nonnegative — the decimal string produced by to_string,
reparsed, equals the exact value raw/2^F (and hence the float conversion)
to within 2^-FracBits, and the printed sign agrees with the sign of the
value.  For -1 < value < 0 the minus sign is dropped (see the
counterexample). -/
theorem to_string_round_trip (F : Nat) (hF : 1 ≤ F) (x : Int)
    (hx : 0 ≤ x ∨ x ≤ -(2 ^ F : Int)) :
    |reparseQ F x - (x : ℚ) / 2 ^ F| < 1 / 2 ^ F ∧
    (hasMinusSign F x = true ↔ x < 0) := by
  have hs : (0:Int) < 2 ^ F := by positivity
  have hsQ : (0:ℚ) < 2 ^ F := by positivity
  have hcastF : ((2 ^ F : Int) : ℚ) = 2 ^ F := by push_cast; ring
  have hdigbound : (1:ℚ) / 10 ^ maxDigits F < 1 / 2 ^ F := by
    have hN := maxDigits_bound F hF
    have h2 : (2:ℚ) ^ F < 10 ^ maxDigits F := by exact_mod_cast hN
    have h3 : (0:ℚ) < 10 ^ maxDigits F := by positivity
    rw [div_lt_div_iff h3 hsQ]
    linarith
  -- shared facts about the truncated division
  rcases hx with hx | hx
  · -- nonnegative case
    have ht : Int.tdiv x (2 ^ F) = x / 2 ^ F :=
      Int.tdiv_eq_ediv hx (le_of_lt hs)
    have htnn : 0 ≤ Int.tdiv x (2 ^ F) := by
      rw [ht]; exact Int.ediv_nonneg hx (le_of_lt hs)
    have hr_eq : x - 2 ^ F * Int.tdiv x (2 ^ F) = x % 2 ^ F := by
      rw [ht, Int.emod_def]
    have hr0 : 0 ≤ x - 2 ^ F * Int.tdiv x (2 ^ F) := by
      rw [hr_eq]; exact Int.emod_nonneg _ (by omega)
    have hrlt : x - 2 ^ F * Int.tdiv x (2 ^ F) < 2 ^ F := by
      rw [hr_eq]; exact Int.emod_lt_of_pos _ hs
    have hxsplit : (x : ℚ) / 2 ^ F
        = (Int.tdiv x (2 ^ F) : ℚ)
          + ((x - 2 ^ F * Int.tdiv x (2 ^ F) : Int) : ℚ) / 2 ^ F := by
      have hint : x = 2 ^ F * Int.tdiv x (2 ^ F)
          + (x - 2 ^ F * Int.tdiv x (2 ^ F)) := by ring
      have hcast : (x : ℚ) = ((2 ^ F : Int) : ℚ) * (Int.tdiv x (2 ^ F) : ℚ)
          + ((x - 2 ^ F * Int.tdiv x (2 ^ F) : Int) : ℚ) := by
        exact_mod_cast congrArg (fun z : Int => (z : ℚ)) hint
      rw [hcastF] at hcast
      field_simp
      linarith
    by_cases hrz : x - 2 ^ F * Int.tdiv x (2 ^ F) = 0
    · have hparts : toStringParts F x = (Int.tdiv x (2 ^ F), []) := by
        rw [toStringParts_def, if_pos hrz]
      have hzero : ((x - 2 ^ F * Int.tdiv x (2 ^ F) : Int) : ℚ) = 0 := by
        rw [hrz]; norm_num
      constructor
      · simp only [reparseQ, hparts]
        rw [hxsplit, hzero]
        simp only [fracValQ, mul_zero, zero_div, add_zero]
        simp
      · simp only [hasMinusSign, hparts, decide_eq_true_eq]
        omega
    · have hparts : toStringParts F x
          = (Int.tdiv x (2 ^ F),
            fracDigits (2 ^ F) (maxDigits F)
              (x - 2 ^ F * Int.tdiv x (2 ^ F))) := by
        rw [toStringParts_def, if_neg hrz, if_neg (by omega)]
      obtain ⟨hlow, hhigh⟩ :=
        fracDigits_bounds (2 ^ F) hs (maxDigits F) _ hr0 hrlt
      rw [hcastF] at hlow hhigh
      constructor
      · simp only [reparseQ, hparts]
        rw [if_neg (show ¬ Int.tdiv x (2 ^ F) < 0 by omega)]
        rw [hxsplit]
        rw [abs_lt]
        constructor <;> nlinarith [hdigbound]
      · simp only [hasMinusSign, hparts, decide_eq_true_eq]
        omega
  · -- negative case: x ≤ -2^F
    have hxneg : x < 0 := by omega
    have hy : Int.tdiv x (2 ^ F) = -((-x) / 2 ^ F) := by
      have hneg := Int.neg_tdiv (-x) (2 ^ F)
      simp only [neg_neg] at hneg
      rw [hneg, Int.tdiv_eq_ediv (by omega) (le_of_lt hs)]
    have htneg : Int.tdiv x (2 ^ F) < 0 := by
      rw [hy]
      have h1 : 1 ≤ (-x) / 2 ^ F := by
        rw [Int.le_ediv_iff_mul_le hs]
        omega
      omega
    have hr_eq : x - 2 ^ F * Int.tdiv x (2 ^ F) = -((-x) % 2 ^ F) := by
      rw [hy, Int.emod_def]
      ring
    have hr0 : x - 2 ^ F * Int.tdiv x (2 ^ F) ≤ 0 := by
      rw [hr_eq]
      have := Int.emod_nonneg (-x) (show (2:Int) ^ F ≠ 0 by omega)
      omega
    have hrgt : -(2 ^ F : Int) < x - 2 ^ F * Int.tdiv x (2 ^ F) := by
      rw [hr_eq]
      have := Int.emod_lt_of_pos (-x) hs
      omega
    have hxsplit : (x : ℚ) / 2 ^ F
        = (Int.tdiv x (2 ^ F) : ℚ)
          + ((x - 2 ^ F * Int.tdiv x (2 ^ F) : Int) : ℚ) / 2 ^ F := by
      have hint : x = 2 ^ F * Int.tdiv x (2 ^ F)
          + (x - 2 ^ F * Int.tdiv x (2 ^ F)) := by ring
      have hcast : (x : ℚ) = ((2 ^ F : Int) : ℚ) * (Int.tdiv x (2 ^ F) : ℚ)
          + ((x - 2 ^ F * Int.tdiv x (2 ^ F) : Int) : ℚ) := by
        exact_mod_cast congrArg (fun z : Int => (z : ℚ)) hint
      rw [hcastF] at hcast
      field_simp
      linarith
    by_cases hrz : x - 2 ^ F * Int.tdiv x (2 ^ F) = 0
    · have hparts : toStringParts F x = (Int.tdiv x (2 ^ F), []) := by
        rw [toStringParts_def, if_pos hrz]
      have hzero : ((x - 2 ^ F * Int.tdiv x (2 ^ F) : Int) : ℚ) = 0 := by
        rw [hrz]; norm_num
      constructor
      · simp only [reparseQ, hparts]
        rw [hxsplit, hzero]
        simp only [fracValQ, mul_zero, zero_div, add_zero]
        simp
      · simp only [hasMinusSign, hparts, decide_eq_true_eq]
        omega
    · have habs : (if x - 2 ^ F * Int.tdiv x (2 ^ F) < 0
          then -(x - 2 ^ F * Int.tdiv x (2 ^ F))
          else x - 2 ^ F * Int.tdiv x (2 ^ F))
          = -(x - 2 ^ F * Int.tdiv x (2 ^ F)) := by
        rw [if_pos (by omega)]
      have hparts : toStringParts F x
          = (Int.tdiv x (2 ^ F),
            fracDigits (2 ^ F) (maxDigits F)
              (-(x - 2 ^ F * Int.tdiv x (2 ^ F)))) := by
        rw [toStringParts_def, if_neg hrz, habs]
      obtain ⟨hlow, hhigh⟩ :=
        fracDigits_bounds (2 ^ F) hs (maxDigits F)
          (-(x - 2 ^ F * Int.tdiv x (2 ^ F))) (by omega) (by omega)
      rw [hcastF] at hlow hhigh
      have hcastneg : ((-(x - 2 ^ F * Int.tdiv x (2 ^ F)) : Int) : ℚ)
          = -((x - 2 ^ F * Int.tdiv x (2 ^ F) : Int) : ℚ) := by push_cast; ring
      rw [hcastneg] at hlow hhigh
      constructor
      · have hrecip : (0:ℚ) < 1 / 2 ^ F := by positivity
        have hnegdiv : -((x - 2 ^ F * Int.tdiv x (2 ^ F) : Int) : ℚ) / 2 ^ F
            = -(((x - 2 ^ F * Int.tdiv x (2 ^ F) : Int) : ℚ) / 2 ^ F) :=
          neg_div _ _
        rw [hnegdiv] at hlow hhigh
        simp only [reparseQ, hparts]
        rw [if_pos htneg]
        rw [hxsplit]
        rw [abs_lt]
        constructor <;> linarith [hdigbound, hrecip]
      · simp only [hasMinusSign, hparts, decide_eq_true_eq]
        omega

/-- C4 amended, witness: the q4.12 value with raw -5120 is -1.25; its
string "-1.25" reparses exactly and carries the minus sign. -/
theorem to_string_round_trip_witness :
    |reparseQ 12 (-5120) - ((-5120 : Int) : ℚ) / 2 ^ 12| < 1 / 2 ^ 12 ∧
    (hasMinusSign 12 (-5120) = true ↔ (-5120 : Int) < 0) :=
  to_string_round_trip 12 (by norm_num) (-5120) (Or.inr (by norm_num))

theorem toSigned_zero (w : Nat) : toSigned w 0 = 0 := by
  unfold toSigned
  rw [if_pos (by positivity)]
  norm_num

theorem ofInt_pow (w k : Nat) (h : k < w) : ofInt w ((2:Int) ^ k) = 2 ^ k := by
  have hN : (2:Nat) ^ k < 2 ^ w := Nat.pow_lt_pow_right (by norm_num) h
  unfold ofInt
  rw [← pow_cast_int k, ← pow_cast_int w, ← Int.natCast_mod, Int.toNat_natCast]
  exact Nat.mod_eq_of_lt hN

theorem toSigned_pow (w k : Nat) (h : k + 1 < w) :
    toSigned w ((2:Nat) ^ k) = (2:Int) ^ k := by
  have hN : (2:Nat) ^ k < 2 ^ (w - 1) :=
    Nat.pow_lt_pow_right (by norm_num) (by omega)
  unfold toSigned
  rw [if_pos hN]
  exact pow_cast_int k

theorem fixMul_pow (F wi i j : Nat) (hij : i + j + 1 < wi) (hF : F ≤ i + j)
    (hFwi : F < wi) :
    fixMul F wi wi (2 ^ i) (2 ^ j) = 2 ^ (i + j - F) := by
  simp only [fixMul]
  rw [toSigned_pow wi i (by omega), ofInt_pow wi i (by omega),
    toSigned_pow wi i (by omega)]
  rw [toSigned_pow wi j (by omega), ofInt_pow wi j (by omega),
    toSigned_pow wi j (by omega)]
  rw [show (2:Int) ^ i * 2 ^ j = 2 ^ (i + j) from (pow_add 2 i j).symm]
  rw [ofInt_pow wi (i + j) (by omega)]
  rw [asrP_spec wi F (2 ^ (i + j))
    (Nat.pow_lt_pow_right (by norm_num) (by omega)) hFwi]
  rw [toSigned_pow wi (i + j) (by omega)]
  rw [show (2:Int) ^ (i + j) = 2 ^ (i + j - F) * 2 ^ F by
    rw [← pow_add]; congr 1; omega]
  rw [Int.mul_fdiv_cancel _ (by positivity : (2:Int) ^ F ≠ 0)]
  exact ofInt_pow wi (i + j - F) (by omega)

theorem fixDiv_pow (F wi i j : Nat) (hiF : i + F + 1 < wi) (hj : j ≤ i + F)
    (hjwi : j + 1 < wi) :
    fixDiv F wi wi (2 ^ i) (2 ^ j) = some (2 ^ (i + F - j)) := by
  simp only [fixDiv]
  rw [toSigned_pow wi j (by omega)]
  rw [if_neg (by positivity : ¬ (2:Int) ^ j = 0)]
  rw [toSigned_pow wi i (by omega)]
  rw [show (2:Int) ^ i * 2 ^ F = 2 ^ (i + F) from (pow_add 2 i F).symm]
  rw [ofInt_pow wi (i + F) (by omega)]
  rw [toSigned_pow wi (i + F) (by omega)]
  rw [Int.tdiv_eq_ediv (by positivity) (by positivity)]
  rw [show (2:Int) ^ (i + F) = 2 ^ (i + F - j) * 2 ^ j by
    rw [← pow_add]; congr 1; omega]
  rw [Int.mul_ediv_cancel _ (by positivity : (2:Int) ^ j ≠ 0)]
  rw [ofInt_pow wi (i + F - j) (by omega)]

theorem fixSub_pow_half (wi k : Nat) (hk : k + 2 < wi) :
    fixSub wi (2 ^ (k + 1)) (2 ^ k) = 2 ^ k := by
  unfold fixSub
  rw [toSigned_pow wi (k + 1) (by omega), toSigned_pow wi k (by omega)]
  rw [show (2:Int) ^ (k + 1) - 2 ^ k = 2 ^ k by rw [pow_succ]; ring]
  exact ofInt_pow wi k (by omega)

theorem fixSub_zero_right (wi q : Nat) (hq : q < 2 ^ wi) :
    fixSub wi q 0 = q := by
  unfold fixSub
  rw [toSigned_zero, sub_zero]
  exact ofInt_toSigned wi q hq

set_option maxRecDepth 8192 in
/-- C10 counterexample: the claim says the fixed nonzero result of sqrt(0)
is 0.125 (raw 2^(FracBits-3)) already for FracBits >= 3, each iteration
exactly halving the estimate.  At FracBits = 3 (int16 Storage, int32
Intermediate) the second Newton iteration computes x*x = fdiv(2*2, 8) = 0,
so the update is zero and sqrt(0) returns raw 2 (the value 0.25), not
raw 2^(3-3) = 1. -/
theorem sqrt_zero_f3_not_eighth :
    fixSqrt 3 16 32 2 (fun t => if t = 0 then 4 else 0) 0 = some 2 ∧
    (2 : Nat) ≠ 2 ^ (3 - 3) := by
  have h1 : nrStep 3 32 0 4 = some 2 := by
    unfold nrStep
    rw [fixOfFloat_one, fixOfFloat_half 3 32 (by norm_num)]
    decide
  have h2 : nrStep 3 32 0 2 = some 2 := by
    unfold nrStep
    rw [fixOfFloat_one, fixOfFloat_half 3 32 (by norm_num)]
    decide
  have hloop : sqrtLoop 3 32 0 2 4 = some 2 := by
    unfold sqrtLoop
    rw [if_neg (by decide), h1]
    show sqrtLoop 3 32 0 1 2 = some 2
    unfold sqrtLoop
    rw [if_neg (by decide), h2]
    rfl
  constructor
  · unfold fixSqrt
    rw [if_neg (by decide)]
    show (Option.map (fun xP => ofInt 16 (toSigned 32 xP))
      (sqrtLoop 3 32 0 2 4)) = some 2
    rw [hloop]
    rfl
  · decide

/-- C10 amended: the seed table's entry 0 is fixed_aux(0.5f) = raw
2^(FracBits-1); with a = 0 each executed Newton-Raphson step computes
exact powers of two, and for FracBits >= 4 each of the two default
iterations exactly halves the estimate, so sqrt(0) returns the nonzero
value 0.125 (raw 2^(FracBits-3)).  (At FracBits = 3 the second iteration
is inert and the result is raw 2 instead; see the counterexample.) -/
theorem sqrt_zero_fixed_nonzero_error (F ws wi : Nat) (lut : Nat → Nat)
    (hF : 4 ≤ F) (hws : F < ws) (hwswi : ws ≤ wi) (hwi : 2 * F + 2 ≤ wi)
    (hlut : lut 0 = 2 ^ (F - 1)) :
    fixSqrt F ws wi 2 lut 0 = some (2 ^ (F - 3)) ∧ 2 ^ (F - 3) ≠ 0 := by
  have hws1 : 1 ≤ ws := by omega
  have hm_xx1 : fixMul F wi wi (2 ^ (F - 1)) (2 ^ (F - 1)) = 2 ^ (F - 2) := by
    have h := fixMul_pow F wi (F - 1) (F - 1) (by omega) (by omega) (by omega)
    rw [show F - 1 + (F - 1) - F = F - 2 by omega] at h
    exact h
  have hsub0_1 : fixSub wi (2 ^ (F - 2)) 0 = 2 ^ (F - 2) :=
    fixSub_zero_right wi _ (Nat.pow_lt_pow_right (by norm_num) (by omega))
  have hdiv1 : fixDiv F wi wi (2 ^ F) (2 ^ (F - 1)) = some (2 ^ (F + 1)) := by
    have h := fixDiv_pow F wi F (F - 1) (by omega) (by omega) (by omega)
    rw [show F + F - (F - 1) = F + 1 by omega] at h
    exact h
  have hm_inv1 : fixMul F wi wi (2 ^ (F - 2)) (2 ^ (F + 1)) = 2 ^ (F - 1) := by
    have h := fixMul_pow F wi (F - 2) (F + 1) (by omega) (by omega) (by omega)
    rw [show F - 2 + (F + 1) - F = F - 1 by omega] at h
    exact h
  have hsub_x1 : fixSub wi (2 ^ (F - 1)) (2 ^ (F - 2)) = 2 ^ (F - 2) := by
    have h := fixSub_pow_half wi (F - 2) (by omega)
    rw [show F - 2 + 1 = F - 1 by omega] at h
    exact h
  have hstep1 : nrStep F wi 0 (2 ^ (F - 1)) = some (2 ^ (F - 2)) := by
    unfold nrStep
    rw [fixOfFloat_one, fixOfFloat_half F wi (by omega),
      ofInt_pow wi F (by omega), ofInt_pow wi (F - 1) (by omega)]
    rw [hdiv1]
    simp only [Option.map_some']
    rw [hm_xx1, hsub0_1, hm_inv1, hm_xx1, hsub_x1]
  have hm_xx2 : fixMul F wi wi (2 ^ (F - 2)) (2 ^ (F - 2)) = 2 ^ (F - 4) := by
    have h := fixMul_pow F wi (F - 2) (F - 2) (by omega) (by omega) (by omega)
    rw [show F - 2 + (F - 2) - F = F - 4 by omega] at h
    exact h
  have hsub0_2 : fixSub wi (2 ^ (F - 4)) 0 = 2 ^ (F - 4) :=
    fixSub_zero_right wi _ (Nat.pow_lt_pow_right (by norm_num) (by omega))
  have hdiv2 : fixDiv F wi wi (2 ^ F) (2 ^ (F - 2)) = some (2 ^ (F + 2)) := by
    have h := fixDiv_pow F wi F (F - 2) (by omega) (by omega) (by omega)
    rw [show F + F - (F - 2) = F + 2 by omega] at h
    exact h
  have hm_inv2 : fixMul F wi wi (2 ^ (F - 4)) (2 ^ (F + 2)) = 2 ^ (F - 2) := by
    have h := fixMul_pow F wi (F - 4) (F + 2) (by omega) (by omega) (by omega)
    rw [show F - 4 + (F + 2) - F = F - 2 by omega] at h
    exact h
  have hm_half2 : fixMul F wi wi (2 ^ (F - 2)) (2 ^ (F - 1)) = 2 ^ (F - 3) := by
    have h := fixMul_pow F wi (F - 2) (F - 1) (by omega) (by omega) (by omega)
    rw [show F - 2 + (F - 1) - F = F - 3 by omega] at h
    exact h
  have hsub_x2 : fixSub wi (2 ^ (F - 2)) (2 ^ (F - 3)) = 2 ^ (F - 3) := by
    have h := fixSub_pow_half wi (F - 3) (by omega)
    rw [show F - 3 + 1 = F - 2 by omega] at h
    exact h
  have hstep2 : nrStep F wi 0 (2 ^ (F - 2)) = some (2 ^ (F - 3)) := by
    unfold nrStep
    rw [fixOfFloat_one, fixOfFloat_half F wi (by omega),
      ofInt_pow wi F (by omega), ofInt_pow wi (F - 1) (by omega)]
    rw [hdiv2]
    simp only [Option.map_some']
    rw [hm_xx2, hsub0_2, hm_inv2, hm_half2, hsub_x2]
  have hne1 : ¬ toSigned wi (2 ^ (F - 1)) = 0 := by
    rw [toSigned_pow wi (F - 1) (by omega)]
    positivity
  have hne2 : ¬ toSigned wi (2 ^ (F - 2)) = 0 := by
    rw [toSigned_pow wi (F - 2) (by omega)]
    positivity
  have hloop : sqrtLoop F wi 0 2 (2 ^ (F - 1)) = some (2 ^ (F - 3)) := by
    unfold sqrtLoop
    rw [if_neg hne1, hstep1]
    show sqrtLoop F wi 0 1 (2 ^ (F - 2)) = some (2 ^ (F - 3))
    unfold sqrtLoop
    rw [if_neg hne2, hstep2]
    rfl
  constructor
  · unfold fixSqrt
    rw [if_neg (by rw [toSigned_zero]; omega)]
    show (Option.map (fun xP => ofInt ws (toSigned wi xP))
      (sqrtLoop F wi (ofInt wi (toSigned ws 0)) 2
        (lut (Int.toNat (fixTruncate F ws 0))))) = some (2 ^ (F - 3))
    rw [show ofInt wi (toSigned ws 0) = 0 by
      rw [toSigned_zero]; unfold ofInt; norm_num]
    rw [show Int.toNat (fixTruncate F ws 0) = 0 by
      unfold fixTruncate; rw [toSigned_zero, Int.zero_tdiv]; rfl]
    rw [hlut, hloop]
    simp only [Option.map_some']
    rw [toSigned_pow wi (F - 3) (by omega)]
    rw [ofInt_pow ws (F - 3) (by omega)]
  · positivity

/-- C10 amended, witness: the q4.12 configuration returns raw 512 = 2^9,
the value 0.125. -/
theorem sqrt_zero_fixed_nonzero_error_witness :
    fixSqrt 12 16 32 2 (fun t => if t = 0 then 2 ^ 11 else 0) 0
      = some (2 ^ (12 - 3)) ∧ (2:Nat) ^ (12 - 3) ≠ 0 :=
  sqrt_zero_fixed_nonzero_error 12 16 32 (fun t => if t = 0 then 2 ^ 11 else 0)
    (by norm_num) (by norm_num) (by norm_num) (by norm_num) (by norm_num)

/-- C8: in `shr_immediate` the scalar tail loop computes `a[i] << Bits`
instead of `a[i] >> Bits`.  With a 16-bit array of length 1 (shorter than
one chunk, so the whole array is handled by the scalar tail), input value 1
and Bits = 1, the kernel writes 1 << 1 = 2 while the arithmetic right
shift of 1 is 0, so the result element differs from `a[i] >> Bits`. -/
theorem shr_tail_uses_left_shift :
    (shr_immediate 16 1 4 (fun _ => 1) (fun _ => 99) 1) 0 = 2 ∧
    elemShl 16 1 (fun _ => 1) 0 = 2 ∧
    asrP 16 1 1 = 0 ∧ (2 : Nat) ≠ 0 := by
  decide

end Fixp
